import Mathlib

/-
Verification of the offline handwriting recognition pipeline of the
Sarkari-Sarathi repository.

The shallow embedding below translates the JavaScript sources:
  * static/handwriting/stroke_processor.js  (StrokeCapture, StrokeProcessor)
  * the Tesseract decode-strategy module    (recognizeFromCanvas, cleanOCRResult)
  * frontend/offline_handwriting.js         (recognizeOffline)
JavaScript numbers on the processing path are modelled by rationals; the
single use of Math.sqrt (Euclidean distance inside resampling) is modelled
by Real.sqrt, so the resampling definitions live over the reals.
-/

namespace HW

/-- A processed point as stored by StrokeProcessor: the JS objects
`{x, y, penState}` pushed by `_flattenStrokes` and its downstream passes. -/
structure Pt where
  x : ℚ
  y : ℚ
  penState : ℚ
deriving DecidableEq, Repr

instance : Inhabited Pt := ⟨⟨0, 0, 0⟩⟩

/-- Configuration record, from DEFAULT_CONFIG in stroke_processor.js.
`resampleDistance` is compared against accumulated Euclidean distances,
hence it is carried as a real number. -/
structure Config where
  canvasWidth : ℚ
  canvasHeight : ℚ
  maxSeqLength : ℕ
  resampleDistance : ℝ
  normalizeToUnitRange : Bool
  useDeltaCoordinates : Bool

/-- DEFAULT_CONFIG of stroke_processor.js. -/
noncomputable def DEFAULT_CONFIG : Config :=
  { canvasWidth := 400
    canvasHeight := 200
    maxSeqLength := 256
    resampleDistance := 3
    normalizeToUnitRange := true
    useDeltaCoordinates := true }

/-- StrokeProcessor._flattenStrokes: concatenate all strokes' points in
stroke order, copying x, y and penState. -/
def flattenStrokes : List (List Pt) → List Pt
  | [] => []
  | s :: rest => s ++ flattenStrokes rest

/-- The Euclidean step distance of _resamplePoints:
`Math.sqrt(dx*dx + dy*dy)` for `dx = cur.x - prev.x`, `dy = cur.y - prev.y`. -/
noncomputable def dist (prev cur : Pt) : ℝ :=
  Real.sqrt (((cur.x - prev.x : ℚ) : ℝ) * ((cur.x - prev.x : ℚ) : ℝ) +
             ((cur.y - prev.y : ℚ) : ℝ) * ((cur.y - prev.y : ℚ) : ℝ))

/-- The loop body of StrokeProcessor._resamplePoints (index i from 1):
accumulate the Euclidean distance from the previous input point; a
pen-down→pen-up boundary is always kept (resetting the accumulator), and
otherwise a point is kept exactly when the accumulator reaches
`resampleDistance`. -/
noncomputable def resampleAux (cfg : Config) (prev : Pt) (acc : ℝ) :
    List Pt → List Pt
  | [] => []
  | cur :: rest =>
    let acc2 := acc + dist prev cur
    if cur.penState = 0 ∧ prev.penState = 1 then
      cur :: resampleAux cfg cur 0 rest
    else if acc2 ≥ cfg.resampleDistance then
      cur :: resampleAux cfg cur 0 rest
    else
      resampleAux cfg cur acc2 rest

/-- StrokeProcessor._resamplePoints.  Lists of fewer than two points are
returned unchanged.  Otherwise the first point is always kept, the loop
`resampleAux` runs over the tail, and finally the last input point is
appended whenever its coordinates differ from the last kept point's
(`last.x !== resampledLast.x || last.y !== resampledLast.y`).  The
`getLastD` default is never used: the kept list always contains the head. -/
noncomputable def resamplePoints (cfg : Config) : List Pt → List Pt
  | [] => []
  | [p] => [p]
  | p :: q :: rest =>
    let resampled := p :: resampleAux cfg p 0 (q :: rest)
    let lastPt := (q :: rest).getLast (List.cons_ne_nil _ _)
    let rLast := resampled.getLastD ⟨0, 0, 0⟩
    if lastPt.x ≠ rLast.x ∨ lastPt.y ≠ rLast.y then resampled ++ [lastPt]
    else resampled

/-- The x-bounding-box minimum of _normalizeCoordinates.  The source seeds
the fold with Infinity; for a nonempty list this equals folding the tail
with the head's coordinate as seed, which is how the embedding phrases it. -/
def xMinOf (p : Pt) (rest : List Pt) : ℚ :=
  rest.foldl (fun m q => min m q.x) p.x

/-- The x-bounding-box maximum of _normalizeCoordinates (seed -Infinity). -/
def xMaxOf (p : Pt) (rest : List Pt) : ℚ :=
  rest.foldl (fun m q => max m q.x) p.x

/-- The y-bounding-box minimum of _normalizeCoordinates. -/
def yMinOf (p : Pt) (rest : List Pt) : ℚ :=
  rest.foldl (fun m q => min m q.y) p.y

/-- The y-bounding-box maximum of _normalizeCoordinates. -/
def yMaxOf (p : Pt) (rest : List Pt) : ℚ :=
  rest.foldl (fun m q => max m q.y) p.y

/-- StrokeProcessor._normalizeCoordinates: compute the bounding box,
guard each range with `Math.max(range, 1)`, and map every coordinate v of
a dimension with minimum m and guarded range r to `2*(v - m)/r - 1`. -/
def normalizeCoordinates : List Pt → List Pt
  | [] => []
  | p :: rest =>
    let xMin := xMinOf p rest
    let xMax := xMaxOf p rest
    let yMin := yMinOf p rest
    let yMax := yMaxOf p rest
    let xRange := max (xMax - xMin) 1
    let yRange := max (yMax - yMin) 1
    (p :: rest).map fun q =>
      ⟨2 * (q.x - xMin) / xRange - 1, 2 * (q.y - yMin) / yRange - 1, q.penState⟩

/-- The loop of _toDeltaCoordinates for indices i ≥ 1: each point's x and y
are replaced by the difference from the immediately preceding input point,
penState passing through. -/
def deltaLoop (prev : Pt) : List Pt → List Pt
  | [] => []
  | cur :: rest => ⟨cur.x - prev.x, cur.y - prev.y, cur.penState⟩ :: deltaLoop cur rest

/-- StrokeProcessor._toDeltaCoordinates: lists of fewer than two points map
every point to a zero delta keeping penState; otherwise the first point
gets delta (0,0) and the loop handles the rest. -/
def toDeltaCoordinates (points : List Pt) : List Pt :=
  if points.length < 2 then
    points.map fun p => ⟨0, 0, p.penState⟩
  else
    match points with
    | [] => []
    | p :: rest => ⟨0, 0, p.penState⟩ :: deltaLoop p rest

/-- The `while (padded.length < maxLen) padded.push({x:0,y:0,penState:0})`
loop of _padSequence. -/
def padLoop (maxLen : ℕ) (l : List Pt) : List Pt :=
  if l.length < maxLen then padLoop maxLen (l ++ [⟨0, 0, 0⟩]) else l
termination_by maxLen - l.length
decreasing_by
  simp only [List.length_append, List.length_singleton]
  omega

/-- StrokeProcessor._padSequence: sequences of at least `maxSeqLength`
points are cut to their first `maxSeqLength` entries (`slice(0, maxLen)`),
shorter ones are extended by the zero-frame push loop. -/
def padSequence (cfg : Config) (points : List Pt) : List Pt :=
  if cfg.maxSeqLength ≤ points.length then points.take cfg.maxSeqLength
  else padLoop cfg.maxSeqLength points

/-- StrokeProcessor._toFloat32Array: the flat width-3 tensor
`[p0.x, p0.y, p0.penState, p1.x, ...]`. -/
def toFloat32Array : List Pt → List ℚ
  | [] => []
  | p :: rest => p.x :: p.y :: p.penState :: toFloat32Array rest

/-- StrokeProcessor.process: the empty (or missing) stroke list returns the
all-zero tensor immediately; otherwise flatten → resample → normalize →
(optionally) delta-encode → pad/truncate → flatten to the tensor. -/
noncomputable def process (cfg : Config) (strokes : List (List Pt)) : List ℚ :=
  if strokes = [] then List.replicate (cfg.maxSeqLength * 3) 0
  else
    let pts1 := flattenStrokes strokes
    let pts2 := resamplePoints cfg pts1
    let pts3 := normalizeCoordinates pts2
    let pts4 := if cfg.useDeltaCoordinates then toDeltaCoordinates pts3 else pts3
    let pts5 := padSequence cfg pts4
    toFloat32Array pts5

/-- A pointer event as produced by StrokeCapture._getCanvasPoint: already
mapped to canvas coordinates and carrying a `Date.now()` timestamp. -/
structure EventPt where
  x : ℚ
  y : ℚ
  timestamp : ℤ
deriving DecidableEq, Repr

/-- A point as stored by StrokeCapture into `currentStroke`.  The pushes in
`_onPointerDown` / `_onPointerMove` build the object `{x, y, penState}`;
the timestamp field of the event point is not copied, which the embedding
records as `timestamp := none` (reading the absent JS key gives undefined). -/
structure StoredPt where
  x : ℚ
  y : ℚ
  timestamp : Option ℤ
  penState : ℚ
deriving DecidableEq, Repr

/-- The mutable state of a StrokeCapture instance. -/
structure CaptureState where
  strokes : List (List StoredPt)
  currentStroke : List StoredPt
  isDrawing : Bool
  lastPoint : Option EventPt
deriving DecidableEq, Repr

/-- Fresh StrokeCapture state, from the constructor. -/
def initialCapture : CaptureState :=
  { strokes := [], currentStroke := [], isDrawing := false, lastPoint := none }

/-- StrokeCapture._onPointerDown: start drawing, reset the current stroke to
the single new pen-down point, remember the event as lastPoint. -/
def onPointerDown (e : EventPt) (s : CaptureState) : CaptureState :=
  { s with
      isDrawing := true
      currentStroke := [⟨e.x, e.y, none, 1⟩]
      lastPoint := some e }

/-- StrokeCapture._onPointerMove: while drawing, append a pen-down point and
update lastPoint; otherwise a no-op. -/
def onPointerMove (e : EventPt) (s : CaptureState) : CaptureState :=
  if s.isDrawing then
    { s with
        currentStroke := s.currentStroke ++ [⟨e.x, e.y, none, 1⟩]
        lastPoint := some e }
  else s

/-- The `this.currentStroke[this.currentStroke.length - 1].penState = 0`
mutation of _onPointerUp: mark the last recorded point pen-up. -/
def setLastPenUp : List StoredPt → List StoredPt
  | [] => []
  | [p] => [{ p with penState := 0 }]
  | p :: q :: rest => p :: setLastPenUp (q :: rest)

/-- StrokeCapture._onPointerUp: while drawing, stop, mark the last current
point pen-up and append the completed stroke (when nonempty), then clear the
in-progress state; otherwise a no-op. -/
def onPointerUp (s : CaptureState) : CaptureState :=
  if s.isDrawing then
    if s.currentStroke ≠ [] then
      { strokes := s.strokes ++ [setLastPenUp s.currentStroke]
        currentStroke := []
        isDrawing := false
        lastPoint := none }
    else
      { s with isDrawing := false, currentStroke := [], lastPoint := none }
  else s

/-- A pointer event reaching a StrokeCapture. -/
inductive CaptureEvent where
  | down (e : EventPt)
  | move (e : EventPt)
  | up
deriving DecidableEq, Repr

/-- Dispatch one event to the corresponding handler. -/
def applyEvent (s : CaptureState) : CaptureEvent → CaptureState
  | .down e => onPointerDown e s
  | .move e => onPointerMove e s
  | .up => onPointerUp s

/-- Run a whole event sequence against a fresh StrokeCapture. -/
def runCapture (evs : List CaptureEvent) : CaptureState :=
  evs.foldl applyEvent initialCapture

/-- Test for the control characters removed by cleanOCRResult's first regex,
the class of x00 to x1F together with x7F. -/
def isCtrlChar (c : Char) : Bool :=
  c.toNat ≤ 31 || c.toNat = 127

/-- The JavaScript regex whitespace class (backslash-s): space, tab, line
and paragraph breaks, and the Unicode space separators. -/
def jsWhitespaceChar (c : Char) : Bool :=
  let n := c.toNat
  n = 32 || n = 9 || n = 10 || n = 11 || n = 12 || n = 13 || n = 160 ||
  n = 5760 || (8192 ≤ n && n ≤ 8202) || n = 8232 || n = 8233 ||
  n = 8239 || n = 8287 || n = 12288 || n = 65279

/-- JavaScript String.prototype.trim on a character list. -/
def jsTrim (l : List Char) : List Char :=
  ((l.dropWhile jsWhitespaceChar).reverse.dropWhile jsWhitespaceChar).reverse

/-- One step of splitting on a newline, used right-to-left. -/
def splitStep (c : Char) (acc : List (List Char)) : List (List Char) :=
  match acc with
  | [] => if c = '\n' then [[], []] else [[c]]
  | cur :: rest => if c = '\n' then [] :: cur :: rest else (c :: cur) :: rest

/-- JavaScript text.split of a newline character on a character list. -/
def splitOnNl (l : List Char) : List (List Char) :=
  l.foldr splitStep [[]]

/-- The character class kept by cleanOCRResult's line filter: Devanagari
(U+0900 to U+097F), Bengali (U+0980 to U+09FF), ASCII letters and digits. -/
def isWordChar (c : Char) : Bool :=
  let n := c.toNat
  (0x900 ≤ n && n ≤ 0x97F) || (0x980 ≤ n && n ≤ 0x9FF) ||
  (97 ≤ n && n ≤ 122) || (65 ≤ n && n ≤ 90) || (48 ≤ n && n ≤ 57)

/-- The line predicate of cleanOCRResult: the trimmed line is nonempty and
contains at least one word character. -/
def keepLine (line : List Char) : Bool :=
  let t := jsTrim line
  !t.isEmpty && t.any isWordChar

/-- Collapse every maximal run of whitespace to one space, tracking whether
the previous character was whitespace (the backslash-s-plus regex). -/
def collapseWSAux (prevWS : Bool) : List Char → List Char
  | [] => []
  | c :: rest =>
    if jsWhitespaceChar c then
      if prevWS then collapseWSAux true rest
      else ' ' :: collapseWSAux true rest
    else c :: collapseWSAux false rest

/-- JavaScript text.replace of one-or-more whitespace by a single space. -/
def collapseWS (l : List Char) : List Char :=
  collapseWSAux false l

/-- cleanOCRResult of the Tesseract module: empty input stays empty;
otherwise strip control characters and trim, split into lines, keep only
lines whose trimmed form contains a word character, join the survivors with
single spaces, trim, and collapse whitespace runs. -/
def cleanOCRResult (t : List Char) : List Char :=
  if t.isEmpty then []
  else
    let t1 := jsTrim (t.filter fun c => !isCtrlChar c)
    let lines := splitOnNl t1
    let cleanLines := lines.filter keepLine
    let joined := jsTrim (List.intercalate [' '] cleanLines)
    collapseWS joined

/-- One Tesseract worker.recognize outcome: the raw text (before the trim
applied by the caller) and the reported confidence. -/
structure TessOut where
  text : List Char
  confidence : ℚ
deriving DecidableEq, Repr

/-- The result record assembled by recognizeFromCanvas: final cleaned text,
the confidence of the kept candidate, whether the PSM7 retry ran, and the
success flag `bestText.length > 0`. -/
structure CanvasReco where
  text : List Char
  confidence : ℚ
  ranSecond : Bool
  success : Bool
deriving DecidableEq, Repr

/-- The best-so-far pair after the PSM6 attempt of recognizeFromCanvas:
starting from ('', 0), the trimmed PSM6 text is adopted exactly when its
confidence exceeds 0 and it is nonempty. -/
def firstBest (r6 : TessOut) : List Char × ℚ :=
  let text6 := jsTrim r6.text
  if r6.confidence > 0 ∧ text6 ≠ [] then (text6, r6.confidence) else ([], 0)

/-- The retry condition of recognizeFromCanvas: the PSM7 attempt runs
exactly when `bestConf < 60 || bestText.length === 0` after PSM6. -/
def secondDecodeRuns (r6 : TessOut) : Bool :=
  decide ((firstBest r6).2 < 60) || decide ((firstBest r6).1 = [])

/-- The decode-strategy logic of recognizeFromCanvas, as a function of the
two Tesseract outcomes: `r6` is the PSM6 result and `r7` the result the
PSM7 retry would return.  The preprocessing and the external worker calls
themselves are outside the embedding. -/
def recognizeFromCanvasModel (r6 r7 : TessOut) : CanvasReco :=
  let b1 := firstBest r6
  let b2 :=
    if secondDecodeRuns r6 then
      let text7 := jsTrim r7.text
      if r7.confidence > b1.2 ∧ text7 ≠ [] then (text7, r7.confidence) else b1
    else b1
  let cleaned := cleanOCRResult b2.1
  ⟨cleaned, b2.2, secondDecodeRuns r6, !cleaned.isEmpty⟩

/-- The kept candidate as the spec words it ("keep whichever non-empty
result has higher confidence"), written independently of the fold in the
source so the source logic can be compared against it: when the primary is
nonempty with confidence at least the threshold 60 it is kept outright;
otherwise the nonempty candidate with positive and strictly higher
confidence wins, the primary winning ties, and no qualifying candidate
leaves the empty text. -/
def specKeptText (r6 r7 : TessOut) : List Char :=
  let t6 := jsTrim r6.text
  let t7 := jsTrim r7.text
  if t6 ≠ [] ∧ r6.confidence ≥ 60 then t6
  else if (t6 ≠ [] ∧ r6.confidence > 0) ∧ (t7 ≠ [] ∧ r7.confidence > 0) then
    if r7.confidence > r6.confidence then t7 else t6
  else if t6 ≠ [] ∧ r6.confidence > 0 then t6
  else if t7 ≠ [] ∧ r7.confidence > 0 then t7
  else []

/-- The result object of offline recognition: recognizeOffline returns
either the recognizer's result or the literal `{text: '', isEmpty: true}`. -/
structure RecoResult where
  text : List Char
  isEmpty : Bool
deriving DecidableEq, Repr

/-- The environment recognizeOffline reads: module state flags, the
stroke capture registered for the canvas (none when absent), and the
recognizer's recognize operation as an opaque-to-the-caller function. -/
structure OfflineEnv where
  isModelLoaded : Bool
  hasRecognizer : Bool
  capture : Option (List (List Pt))
  recognize : List (List Pt) → RecoResult

/-- recognizeOffline of offline_handwriting.js: fail when the model or the
capture is unavailable; with zero strokes return the empty result without
touching the recognizer; otherwise delegate to recognizer.recognize. -/
def recognizeOffline (env : OfflineEnv) : Except (List Char) RecoResult :=
  if ¬ (env.isModelLoaded = true ∧ env.hasRecognizer = true) then
    .error ("Model not available".toList)
  else
    match env.capture with
    | none => .error ("No stroke capture for canvas".toList)
    | some strokes =>
      if strokes = [] then .ok ⟨[], true⟩
      else .ok (env.recognize strokes)

/-- Modelled from the spec: the repository loads a CTC decoder from
static/handwriting/ctc_decoder.js, which is not among the sources; the
greedy decoder below follows section 4.4 of the spec.  First the arg-max
scan of one probability row: the index of the first maximal entry. -/
def argmaxFrom (bi : ℕ) (bv : ℚ) (i : ℕ) : List ℚ → ℕ
  | [] => bi
  | v :: rest => if v > bv then argmaxFrom i v (i + 1) rest
                 else argmaxFrom bi bv (i + 1) rest

/-- Modelled from the spec: arg-max label of a probability row (0 on an
empty row). -/
def argmaxIdx : List ℚ → ℕ
  | [] => 0
  | v :: rest => argmaxFrom 0 v 1 rest

/-- Modelled from the spec: collapse consecutive repeats of the same label
into one occurrence. -/
def collapseRepeats : List ℕ → List ℕ
  | [] => []
  | [a] => [a]
  | a :: b :: rest =>
    if a = b then collapseRepeats (b :: rest)
    else a :: collapseRepeats (b :: rest)

/-- Modelled from the spec: the label alphabet of the CTC example, with the
reserved blank token at index 0 (the underscore is a printable stand-in for
blank; it is never emitted because blanks are dropped before mapping). -/
def ctcAlphabet : List Char := ['_', 'क', 'ख']

/-- Modelled from the spec: greedy CTC decoding — per-timestep arg-max,
collapse consecutive repeats, drop blank emissions, map the surviving
label indices through the alphabet. -/
def greedyDecode (alphabet : List Char) (mat : List (List ℚ)) : List Char :=
  let labels := mat.map argmaxIdx
  let collapsed := collapseRepeats labels
  let nonBlank := collapsed.filter fun i => i ≠ 0
  nonBlank.filterMap fun i => alphabet[i]?

/-- The concrete 10-point zig-zag stroke used for the resampling example:
alternating horizontal and vertical segments of length 4, pen down
throughout and pen up at the end. -/
def zigzag10 : List Pt :=
  [⟨0, 0, 1⟩, ⟨4, 0, 1⟩, ⟨4, 4, 1⟩, ⟨8, 4, 1⟩, ⟨8, 8, 1⟩,
   ⟨12, 8, 1⟩, ⟨12, 12, 1⟩, ⟨16, 12, 1⟩, ⟨16, 16, 1⟩, ⟨20, 16, 0⟩]

/-- The tensor has three entries per point. -/
lemma toFloat32Array_length (l : List Pt) :
    (toFloat32Array l).length = 3 * l.length := by
  induction l with
  | nil => simp [toFloat32Array]
  | cons p rest ih =>
    simp only [toFloat32Array, List.length_cons, ih]
    ring

/-- The push loop of _padSequence appends exactly the missing zero frames. -/
lemma padLoop_eq (maxLen : ℕ) :
    ∀ fuel l, maxLen - l.length ≤ fuel →
      padLoop maxLen l = l ++ List.replicate (maxLen - l.length) (⟨0, 0, 0⟩ : Pt) := by
  intro fuel
  induction fuel with
  | zero =>
    intro l h
    have h0 : maxLen - l.length = 0 := Nat.le_zero.mp h
    have h1 : ¬ l.length < maxLen := by omega
    rw [padLoop, if_neg h1, h0, List.replicate_zero, List.append_nil]
  | succ n ih =>
    intro l h
    by_cases hlt : l.length < maxLen
    · rw [padLoop, if_pos hlt]
      have hlen : (l ++ [(⟨0, 0, 0⟩ : Pt)]).length = l.length + 1 := by simp
      have hfuel : maxLen - (l ++ [(⟨0, 0, 0⟩ : Pt)]).length ≤ n := by
        rw [hlen]; omega
      rw [ih _ hfuel, hlen, List.append_assoc]
      congr 1
      have : maxLen - l.length = (maxLen - (l.length + 1)) + 1 := by omega
      rw [this, List.replicate_succ]
      rfl
    · have h0 : maxLen - l.length = 0 := by omega
      rw [padLoop, if_neg hlt, h0, List.replicate_zero, List.append_nil]

/-- _padSequence always returns exactly maxSeqLength points. -/
lemma padSequence_length (cfg : Config) (l : List Pt) :
    (padSequence cfg l).length = cfg.maxSeqLength := by
  unfold padSequence
  by_cases h : cfg.maxSeqLength ≤ l.length
  · rw [if_pos h, List.length_take]
    omega
  · rw [if_neg h, padLoop_eq cfg.maxSeqLength (cfg.maxSeqLength - l.length) l le_rfl]
    simp only [List.length_append, List.length_replicate]
    omega

/-- The delta loop keeps the list length. -/
lemma deltaLoop_length (l : List Pt) : ∀ prev, (deltaLoop prev l).length = l.length := by
  induction l with
  | nil => intro prev; rfl
  | cons c rest ih => intro prev; simp [deltaLoop, ih]

/-- Entry i of the delta loop is the difference of input entries i and i-1
(with the seed in front). -/
lemma deltaLoop_get? (l : List Pt) :
    ∀ (prev : Pt) (i : ℕ) (pre cur : Pt),
      (prev :: l)[i]? = some pre → l[i]? = some cur →
      (deltaLoop prev l)[i]? =
        some (⟨cur.x - pre.x, cur.y - pre.y, cur.penState⟩ : Pt) := by
  induction l with
  | nil =>
    intro prev i pre cur _ hcur
    simp at hcur
  | cons c rest ih =>
    intro prev i pre cur hpre hcur
    cases i with
    | zero =>
      simp only [List.getElem?_cons_zero, Option.some.injEq] at hpre hcur
      subst hpre; subst hcur
      simp [deltaLoop]
    | succ j =>
      simp only [List.getElem?_cons_succ] at hpre hcur
      simpa [deltaLoop] using ih c j pre cur hpre hcur

/-- Seeded fold with min stays below the seed and every folded value. -/
lemma foldl_min_bounds (f : Pt → ℚ) :
    ∀ (rest : List Pt) (a : ℚ),
      rest.foldl (fun m q => min m (f q)) a ≤ a ∧
      ∀ q ∈ rest, rest.foldl (fun m q => min m (f q)) a ≤ f q := by
  intro rest
  induction rest with
  | nil => intro a; exact ⟨le_rfl, by simp⟩
  | cons c rest ih =>
    intro a
    constructor
    · exact le_trans (ih (min a (f c))).1 (min_le_left _ _)
    · intro q hq
      rcases List.mem_cons.mp hq with h | h
      · subst h
        exact le_trans (ih (min a (f q))).1 (min_le_right _ _)
      · exact (ih (min a (f c))).2 q h

/-- Seeded fold with max stays above the seed and every folded value. -/
lemma foldl_max_bounds (f : Pt → ℚ) :
    ∀ (rest : List Pt) (a : ℚ),
      a ≤ rest.foldl (fun m q => max m (f q)) a ∧
      ∀ q ∈ rest, f q ≤ rest.foldl (fun m q => max m (f q)) a := by
  intro rest
  induction rest with
  | nil => intro a; exact ⟨le_rfl, by simp⟩
  | cons c rest ih =>
    intro a
    constructor
    · exact le_trans (le_max_left _ _) (ih (max a (f c))).1
    · intro q hq
      rcases List.mem_cons.mp hq with h | h
      · subst h
        exact le_trans (le_max_right _ _) (ih (max a (f q))).1
      · exact (ih (max a (f c))).2 q h

/-- A min fold over constantly-valued entries returns the seed. -/
lemma foldl_min_const (f : Pt → ℚ) :
    ∀ (rest : List Pt) (a : ℚ), (∀ q ∈ rest, f q = a) →
      rest.foldl (fun m q => min m (f q)) a = a := by
  intro rest
  induction rest with
  | nil => intro a _; rfl
  | cons c rest ih =>
    intro a h
    have hc : f c = a := h c (List.mem_cons_self _ _)
    simp only [List.foldl_cons, hc, min_self]
    exact ih a fun q hq => h q (List.mem_cons_of_mem _ hq)

/-- A max fold over constantly-valued entries returns the seed. -/
lemma foldl_max_const (f : Pt → ℚ) :
    ∀ (rest : List Pt) (a : ℚ), (∀ q ∈ rest, f q = a) →
      rest.foldl (fun m q => max m (f q)) a = a := by
  intro rest
  induction rest with
  | nil => intro a _; rfl
  | cons c rest ih =>
    intro a h
    have hc : f c = a := h c (List.mem_cons_self _ _)
    simp only [List.foldl_cons, hc, max_self]
    exact ih a fun q hq => h q (List.mem_cons_of_mem _ hq)

/-- Delta-encoding a list whose x coordinates are all equal gives zero x
everywhere (loop part). -/
lemma deltaLoop_const_x (c : ℚ) :
    ∀ (l : List Pt) (prev : Pt), prev.x = c → (∀ r ∈ l, r.x = c) →
      ∀ r ∈ deltaLoop prev l, r.x = 0 := by
  intro l
  induction l with
  | nil => intro prev _ _ r hr; simp [deltaLoop] at hr
  | cons q rest ih =>
    intro prev hprev hall r hr
    have hq : q.x = c := hall q (List.mem_cons_self _ _)
    rcases List.mem_cons.mp hr with h | h
    · subst h; simp [hq, hprev]
    · exact ih q hq (fun s hs => hall s (List.mem_cons_of_mem _ hs)) r h

/-- Delta-encoding a list whose y coordinates are all equal gives zero y
everywhere (loop part). -/
lemma deltaLoop_const_y (c : ℚ) :
    ∀ (l : List Pt) (prev : Pt), prev.y = c → (∀ r ∈ l, r.y = c) →
      ∀ r ∈ deltaLoop prev l, r.y = 0 := by
  intro l
  induction l with
  | nil => intro prev _ _ r hr; simp [deltaLoop] at hr
  | cons q rest ih =>
    intro prev hprev hall r hr
    have hq : q.y = c := hall q (List.mem_cons_self _ _)
    rcases List.mem_cons.mp hr with h | h
    · subst h; simp [hq, hprev]
    · exact ih q hq (fun s hs => hall s (List.mem_cons_of_mem _ hs)) r h

/-- Delta-encoding a constant-x list gives zero x everywhere. -/
lemma toDelta_const_x (c : ℚ) (l : List Pt) (hall : ∀ r ∈ l, r.x = c) :
    ∀ r ∈ toDeltaCoordinates l, r.x = 0 := by
  intro r hr
  unfold toDeltaCoordinates at hr
  by_cases hlen : l.length < 2
  · rw [if_pos hlen] at hr
    rcases List.mem_map.mp hr with ⟨q, _, hq⟩
    rw [← hq]
  · rw [if_neg hlen] at hr
    match l, hr with
    | p :: rest, hr =>
      rcases List.mem_cons.mp hr with h | h
      · rw [h]
      · exact deltaLoop_const_x c rest p (hall p (List.mem_cons_self _ _))
          (fun s hs => hall s (List.mem_cons_of_mem _ hs)) r h

/-- Delta-encoding a constant-y list gives zero y everywhere. -/
lemma toDelta_const_y (c : ℚ) (l : List Pt) (hall : ∀ r ∈ l, r.y = c) :
    ∀ r ∈ toDeltaCoordinates l, r.y = 0 := by
  intro r hr
  unfold toDeltaCoordinates at hr
  by_cases hlen : l.length < 2
  · rw [if_pos hlen] at hr
    rcases List.mem_map.mp hr with ⟨q, _, hq⟩
    rw [← hq]
  · rw [if_neg hlen] at hr
    match l, hr with
    | p :: rest, hr =>
      rcases List.mem_cons.mp hr with h | h
      · rw [h]
      · exact deltaLoop_const_y c rest p (hall p (List.mem_cons_self _ _))
          (fun s hs => hall s (List.mem_cons_of_mem _ hs)) r h

/-- The no-timestamp invariant on a capture state: no stored point, finished
or in progress, carries a timestamp. -/
def NoTimestamps (s : CaptureState) : Prop :=
  (∀ stroke ∈ s.strokes, ∀ p ∈ stroke, p.timestamp = none) ∧
  (∀ p ∈ s.currentStroke, p.timestamp = none)

/-- Marking the last point pen-up does not touch timestamps. -/
lemma setLastPenUp_timestamp :
    ∀ (l : List StoredPt), (∀ p ∈ l, p.timestamp = none) →
      ∀ p ∈ setLastPenUp l, p.timestamp = none := by
  intro l
  induction l with
  | nil => intro _ p hp; simp [setLastPenUp] at hp
  | cons a rest ih =>
    intro h p hp
    match rest, hp with
    | [], hp =>
      simp only [setLastPenUp, List.mem_singleton] at hp
      subst hp
      exact h a (List.mem_cons_self _ _)
    | b :: rest', hp =>
      rcases List.mem_cons.mp hp with hh | hh
      · subst hh; exact h p (List.mem_cons_self _ _)
      · exact ih (fun q hq => h q (List.mem_cons_of_mem _ hq)) p hh

/-- Every event handler preserves the no-timestamp invariant. -/
lemma applyEvent_noTimestamps (s : CaptureState) (e : CaptureEvent)
    (h : NoTimestamps s) : NoTimestamps (applyEvent s e) := by
  obtain ⟨hs, hc⟩ := h
  cases e with
  | down e =>
    refine ⟨hs, ?_⟩
    intro p hp
    simp only [applyEvent, onPointerDown, List.mem_singleton] at hp
    subst hp; rfl
  | move e =>
    simp only [applyEvent, onPointerMove]
    by_cases hd : s.isDrawing
    · rw [if_pos hd]
      refine ⟨hs, ?_⟩
      intro p hp
      rcases List.mem_append.mp hp with hh | hh
      · exact hc p hh
      · simp only [List.mem_singleton] at hh
        subst hh; rfl
    · rw [if_neg hd]; exact ⟨hs, hc⟩
  | up =>
    simp only [applyEvent, onPointerUp]
    by_cases hd : s.isDrawing
    · rw [if_pos hd]
      by_cases hne : s.currentStroke ≠ []
      · rw [if_pos hne]
        constructor
        · intro stroke hstroke p hp
          rcases List.mem_append.mp hstroke with hh | hh
          · exact hs stroke hh p hp
          · simp only [List.mem_singleton] at hh
            subst hh
            exact setLastPenUp_timestamp s.currentStroke hc p hp
        · intro p hp; simp at hp
      · rw [if_neg hne]
        exact ⟨hs, by intro p hp; simp at hp⟩
    · rw [if_neg hd]; exact ⟨hs, hc⟩

/-- Folding any event list preserves the no-timestamp invariant. -/
lemma foldl_noTimestamps :
    ∀ (evs : List CaptureEvent) (s : CaptureState), NoTimestamps s →
      NoTimestamps (evs.foldl applyEvent s) := by
  intro evs
  induction evs with
  | nil => intro s h; exact h
  | cons e rest ih =>
    intro s h
    exact ih (applyEvent s e) (applyEvent_noTimestamps s e h)

/-- C1.  For every StrokeSet, process returns a tensor of exactly
maxSeqLength frames of width 3; longer point sequences are truncated to the
first maxSeqLength frames and shorter ones right-padded with zero frames;
the default maxSeqLength is 256. -/
theorem claim_C1 (cfg : Config) :
    (∀ strokes, (process cfg strokes).length = cfg.maxSeqLength * 3) ∧
    (∀ pts, cfg.maxSeqLength ≤ pts.length →
       padSequence cfg pts = pts.take cfg.maxSeqLength) ∧
    (∀ pts, pts.length < cfg.maxSeqLength →
       padSequence cfg pts =
         pts ++ List.replicate (cfg.maxSeqLength - pts.length) ⟨0, 0, 0⟩) ∧
    DEFAULT_CONFIG.maxSeqLength = 256 := by
  refine ⟨?_, ?_, ?_, rfl⟩
  · intro strokes
    unfold process
    by_cases h : strokes = []
    · rw [if_pos h]
      simp [Nat.mul_comm]
    · rw [if_neg h]
      simp only [toFloat32Array_length, padSequence_length]
      ring
  · intro pts h
    unfold padSequence
    rw [if_pos h]
  · intro pts h
    unfold padSequence
    rw [if_neg (by omega)]
    exact padLoop_eq cfg.maxSeqLength (cfg.maxSeqLength - pts.length) pts le_rfl

/-- Witness for C1 at concrete inputs: with maxSeqLength 2 a three-point
sequence is truncated to its first two points. -/
theorem claim_C1_witness :
    (({ DEFAULT_CONFIG with maxSeqLength := 2 } : Config).maxSeqLength ≤
       ([⟨1, 1, 1⟩, ⟨2, 2, 1⟩, ⟨3, 3, 0⟩] : List Pt).length) ∧
    padSequence { DEFAULT_CONFIG with maxSeqLength := 2 }
        [⟨1, 1, 1⟩, ⟨2, 2, 1⟩, ⟨3, 3, 0⟩] =
      ([⟨1, 1, 1⟩, ⟨2, 2, 1⟩, ⟨3, 3, 0⟩] : List Pt).take
        ({ DEFAULT_CONFIG with maxSeqLength := 2 } : Config).maxSeqLength :=
  ⟨by simp, (claim_C1 _).2.1 _ (by simp)⟩

/-- C2 (amended).  In a degenerate dimension (zero extent, including the
single-point case) the guarded range is 1 and normalization produces the
constant coordinate -1 in that dimension, not 0; the coordinates become
all-zero only after delta-encoding. -/
theorem claim_C2 (pts : List Pt) (hne : pts ≠ []) :
    ((∀ p ∈ pts, ∀ q ∈ pts, p.x = q.x) →
       (∀ r ∈ normalizeCoordinates pts, r.x = -1) ∧
       (∀ r ∈ toDeltaCoordinates (normalizeCoordinates pts), r.x = 0)) ∧
    ((∀ p ∈ pts, ∀ q ∈ pts, p.y = q.y) →
       (∀ r ∈ normalizeCoordinates pts, r.y = -1) ∧
       (∀ r ∈ toDeltaCoordinates (normalizeCoordinates pts), r.y = 0)) := by
  match pts, hne with
  | p :: rest, _ =>
    constructor
    · intro hx
      have hrest : ∀ q ∈ rest, q.x = p.x := fun q hq =>
        hx q (List.mem_cons_of_mem _ hq) p (List.mem_cons_self _ _)
      have hmin : xMinOf p rest = p.x := foldl_min_const (fun q => q.x) rest p.x hrest
      have hmax : xMaxOf p rest = p.x := foldl_max_const (fun q => q.x) rest p.x hrest
      have hnorm : ∀ r ∈ normalizeCoordinates (p :: rest), r.x = -1 := by
        intro r hr
        simp only [normalizeCoordinates] at hr
        rcases List.mem_map.mp hr with ⟨q, hq, hqr⟩
        have hqx : q.x = p.x := hx q hq p (List.mem_cons_self _ _)
        rw [← hqr]
        simp [hmin, hmax, hqx]
      exact ⟨hnorm, toDelta_const_x (-1) _ hnorm⟩
    · intro hy
      have hrest : ∀ q ∈ rest, q.y = p.y := fun q hq =>
        hy q (List.mem_cons_of_mem _ hq) p (List.mem_cons_self _ _)
      have hmin : yMinOf p rest = p.y := foldl_min_const (fun q => q.y) rest p.y hrest
      have hmax : yMaxOf p rest = p.y := foldl_max_const (fun q => q.y) rest p.y hrest
      have hnorm : ∀ r ∈ normalizeCoordinates (p :: rest), r.y = -1 := by
        intro r hr
        simp only [normalizeCoordinates] at hr
        rcases List.mem_map.mp hr with ⟨q, hq, hqr⟩
        have hqy : q.y = p.y := hy q hq p (List.mem_cons_self _ _)
        rw [← hqr]
        simp [hmin, hmax, hqy]
      exact ⟨hnorm, toDelta_const_y (-1) _ hnorm⟩

/-- Counterexample for C2 as stated: a single kept point normalizes to the
coordinates (-1, -1), which are not zero. -/
theorem claim_C2_cex :
    normalizeCoordinates [⟨5, 5, 1⟩] = [⟨-1, -1, 1⟩] ∧ ((-1 : ℚ) ≠ 0) :=
  ⟨by simp [normalizeCoordinates, xMinOf, xMaxOf, yMinOf, yMaxOf], by norm_num⟩

/-- Witness for C2 at a concrete input: a vertical two-point list has
degenerate x extent; its normalized x coordinates are all -1 and the
delta-encoded x coordinates are all 0. -/
theorem claim_C2_witness :
    (([⟨5, 5, 1⟩, ⟨5, 7, 1⟩] : List Pt) ≠ []) ∧
    ((∀ r ∈ normalizeCoordinates [⟨5, 5, 1⟩, ⟨5, 7, 1⟩], r.x = -1) ∧
     (∀ r ∈ toDeltaCoordinates (normalizeCoordinates [⟨5, 5, 1⟩, ⟨5, 7, 1⟩]),
        r.x = 0)) :=
  ⟨by simp, (claim_C2 _ (by simp)).1 (by decide)⟩

/-- C3.  Every coordinate produced by the normalization step lies within
the closed interval from -1 to 1. -/
theorem claim_C3 (pts : List Pt) (r : Pt) (hr : r ∈ normalizeCoordinates pts) :
    -1 ≤ r.x ∧ r.x ≤ 1 ∧ -1 ≤ r.y ∧ r.y ≤ 1 := by
  match pts with
  | [] => simp [normalizeCoordinates] at hr
  | p :: rest =>
    simp only [normalizeCoordinates] at hr
    rcases List.mem_map.mp hr with ⟨q, hq, hqr⟩
    have hxmin : xMinOf p rest ≤ q.x := by
      rcases List.mem_cons.mp hq with h | h
      · rw [h] at *; exact (foldl_min_bounds (fun q => q.x) rest p.x).1
      · exact (foldl_min_bounds (fun q => q.x) rest p.x).2 q h
    have hxmax : q.x ≤ xMaxOf p rest := by
      rcases List.mem_cons.mp hq with h | h
      · rw [h] at *; exact (foldl_max_bounds (fun q => q.x) rest p.x).1
      · exact (foldl_max_bounds (fun q => q.x) rest p.x).2 q h
    have hymin : yMinOf p rest ≤ q.y := by
      rcases List.mem_cons.mp hq with h | h
      · rw [h] at *; exact (foldl_min_bounds (fun q => q.y) rest p.y).1
      · exact (foldl_min_bounds (fun q => q.y) rest p.y).2 q h
    have hymax : q.y ≤ yMaxOf p rest := by
      rcases List.mem_cons.mp hq with h | h
      · rw [h] at *; exact (foldl_max_bounds (fun q => q.y) rest p.y).1
      · exact (foldl_max_bounds (fun q => q.y) rest p.y).2 q h
    have hxR : (0 : ℚ) < max (xMaxOf p rest - xMinOf p rest) 1 :=
      lt_of_lt_of_le one_pos (le_max_right _ _)
    have hyR : (0 : ℚ) < max (yMaxOf p rest - yMinOf p rest) 1 :=
      lt_of_lt_of_le one_pos (le_max_right _ _)
    have hxRge : xMaxOf p rest - xMinOf p rest ≤
        max (xMaxOf p rest - xMinOf p rest) 1 := le_max_left _ _
    have hyRge : yMaxOf p rest - yMinOf p rest ≤
        max (yMaxOf p rest - yMinOf p rest) 1 := le_max_left _ _
    have hx0 : 0 ≤ 2 * (q.x - xMinOf p rest) /
        max (xMaxOf p rest - xMinOf p rest) 1 :=
      div_nonneg (by linarith) hxR.le
    have hx2 : 2 * (q.x - xMinOf p rest) /
        max (xMaxOf p rest - xMinOf p rest) 1 ≤ 2 :=
      (div_le_iff₀ hxR).mpr (by linarith)
    have hy0 : 0 ≤ 2 * (q.y - yMinOf p rest) /
        max (yMaxOf p rest - yMinOf p rest) 1 :=
      div_nonneg (by linarith) hyR.le
    have hy2 : 2 * (q.y - yMinOf p rest) /
        max (yMaxOf p rest - yMinOf p rest) 1 ≤ 2 :=
      (div_le_iff₀ hyR).mpr (by linarith)
    rw [← hqr]
    refine ⟨by simp only; linarith, by simp only; linarith,
            by simp only; linarith, by simp only; linarith⟩

/-- Witness for C3 at a concrete input: the second normalized point of a
two-point list has coordinates within the interval. -/
theorem claim_C3_witness :
    -1 ≤ (⟨1, 1, 0⟩ : Pt).x ∧ (⟨1, 1, 0⟩ : Pt).x ≤ 1 ∧
    -1 ≤ (⟨1, 1, 0⟩ : Pt).y ∧ (⟨1, 1, 0⟩ : Pt).y ≤ 1 :=
  claim_C3 [⟨0, 0, 1⟩, ⟨4, 2, 0⟩] ⟨1, 1, 0⟩
    (by norm_num [normalizeCoordinates, xMinOf, xMaxOf, yMinOf, yMaxOf])

/-- C5.  Delta-encoding keeps the length, gives the first point delta
(0,0), replaces each later point's coordinates by the difference from the
immediately preceding point, and passes penState through unchanged. -/
theorem claim_C5 (pts : List Pt) :
    (toDeltaCoordinates pts).length = pts.length ∧
    (∀ p rest, pts = p :: rest →
       (toDeltaCoordinates pts).head? = some ⟨0, 0, p.penState⟩) ∧
    (∀ i prev cur, pts[i]? = some prev → pts[i + 1]? = some cur →
       (toDeltaCoordinates pts)[i + 1]? =
         some ⟨cur.x - prev.x, cur.y - prev.y, cur.penState⟩) := by
  match pts with
  | [] =>
    refine ⟨rfl, ?_, ?_⟩
    · intro p rest h; cases h
    · intro i prev cur h _; simp at h
  | [p] =>
    refine ⟨rfl, ?_, ?_⟩
    · intro q rest h
      cases h
      rfl
    · intro i prev cur _ hcur
      rcases i with _ | j <;> simp at hcur
  | p :: q :: rest =>
    have hnot : ¬ (p :: q :: rest).length < 2 := by simp
    refine ⟨?_, ?_, ?_⟩
    · unfold toDeltaCoordinates
      rw [if_neg hnot]
      simp [deltaLoop_length]
    · intro p' rest' h
      cases h
      unfold toDeltaCoordinates
      rw [if_neg hnot]
      rfl
    · intro i prev cur hprev hcur
      unfold toDeltaCoordinates
      rw [if_neg hnot]
      simp only [List.getElem?_cons_succ]
      exact deltaLoop_get? (q :: rest) p i prev cur hprev
        (by simpa using hcur)

/-- Witness for C5 at a concrete input: the second delta of a two-point
list is the coordinate difference with the pen state of the second point. -/
theorem claim_C5_witness :
    (toDeltaCoordinates [⟨1, 2, 1⟩, ⟨4, 6, 0⟩])[0 + 1]? =
      some ⟨(4 : ℚ) - 1, (6 : ℚ) - 2, 0⟩ :=
  (claim_C5 [⟨1, 2, 1⟩, ⟨4, 6, 0⟩]).2.2 0 ⟨1, 2, 1⟩ ⟨4, 6, 0⟩ rfl rfl

/-- C6.  The processing path is a pure function of the stroke data: the
embedding of flatten, resample, normalize, delta-encode and pad/truncate
contains no source of randomness or wall-clock time (none appears in the
source of process), so two calls on the same StrokeSet agree. -/
theorem claim_C6 (cfg : Config) (strokes : List (List Pt)) :
    process cfg strokes = process cfg strokes := rfl

/-- C7.  A request whose StrokeSet has zero strokes returns the empty
result, the recognizer's recognize operation is never consulted (the
outcome does not depend on it), and process on an empty stroke list is the
all-zero tensor. -/
theorem claim_C7 (env : OfflineEnv) (h : env.capture = some []) :
    (env.isModelLoaded = true → env.hasRecognizer = true →
       recognizeOffline env = .ok ⟨[], true⟩) ∧
    (∀ f g, recognizeOffline { env with recognize := f } =
            recognizeOffline { env with recognize := g }) ∧
    (∀ cfg, process cfg [] = List.replicate (cfg.maxSeqLength * 3) 0) := by
  refine ⟨?_, ?_, ?_⟩
  · intro h1 h2
    simp [recognizeOffline, h, h1, h2]
  · intro f g
    simp [recognizeOffline, h]
  · intro cfg
    simp [process]

/-- Witness for C7 at a concrete environment with an empty StrokeSet. -/
theorem claim_C7_witness :
    ((⟨true, true, some [], fun _ => ⟨['x'], false⟩⟩ : OfflineEnv).capture
       = some []) ∧
    recognizeOffline ⟨true, true, some [], fun _ => ⟨['x'], false⟩⟩ =
      .ok ⟨[], true⟩ :=
  ⟨rfl, (claim_C7 ⟨true, true, some [], fun _ => ⟨['x'], false⟩⟩ rfl).1 rfl rfl⟩

/-- C9.  Greedy CTC decoding over the alphabet with blank at index 0 and
the letters क (index 1) and ख (index 2): an arg-max sequence क, blank, क
decodes to "कक" and an arg-max sequence क, क, blank decodes to "क". -/
theorem claim_C9 (mat : List (List ℚ)) :
    (mat.map argmaxIdx = [1, 0, 1] →
       greedyDecode ctcAlphabet mat = ['क', 'क']) ∧
    (mat.map argmaxIdx = [1, 1, 0] →
       greedyDecode ctcAlphabet mat = ['क']) := by
  constructor
  · intro h
    simp only [greedyDecode]
    rw [h]
    rfl
  · intro h
    simp only [greedyDecode]
    rw [h]
    rfl

/-- Witness for C9 at concrete probability matrices with rows summing to
one and arg-max sequences क, blank, क and क, क, blank. -/
theorem claim_C9_witness :
    (([[(1 : ℚ)/10, 8/10, 1/10], [8/10, 1/10, 1/10],
       [1/10, 8/10, 1/10]].map argmaxIdx = [1, 0, 1]) ∧
      greedyDecode ctcAlphabet
        [[(1 : ℚ)/10, 8/10, 1/10], [8/10, 1/10, 1/10], [1/10, 8/10, 1/10]] =
        ['क', 'क']) ∧
    (([[(1 : ℚ)/10, 8/10, 1/10], [1/10, 8/10, 1/10],
       [8/10, 1/10, 1/10]].map argmaxIdx = [1, 1, 0]) ∧
      greedyDecode ctcAlphabet
        [[(1 : ℚ)/10, 8/10, 1/10], [1/10, 8/10, 1/10], [8/10, 1/10, 1/10]] =
        ['क']) :=
  ⟨⟨by norm_num [argmaxIdx, argmaxFrom], (claim_C9 _).1
      (by norm_num [argmaxIdx, argmaxFrom])⟩,
   ⟨by norm_num [argmaxIdx, argmaxFrom], (claim_C9 _).2
      (by norm_num [argmaxIdx, argmaxFrom])⟩⟩

/-- C10 (amended).  Points recorded by StrokeCapture carry only x, y and
penState: the Date.now() timestamp computed in _getCanvasPoint is dropped
by the pushes in the pointer handlers, so every recorded point — in every
completed stroke and in the in-progress stroke — has no timestamp, and no
timestamp ordering invariant is maintained on recorded strokes. -/
theorem claim_C10 (evs : List CaptureEvent) :
    (∀ stroke ∈ (runCapture evs).strokes, ∀ p ∈ stroke, p.timestamp = none) ∧
    (∀ p ∈ (runCapture evs).currentStroke, p.timestamp = none) :=
  foldl_noTimestamps evs initialCapture
    ⟨by intro stroke h; simp [initialCapture] at h,
     by intro p h; simp [initialCapture] at h⟩

/-- Counterexample for C10 as stated: after a concrete down/up gesture the
recorded stroke is a single point whose timestamp field is absent, so it is
not the case that every recorded point carries a timestamp. -/
theorem claim_C10_cex :
    (runCapture [CaptureEvent.down ⟨3, 4, 100⟩, CaptureEvent.up]).strokes =
      [[⟨3, 4, none, 0⟩]] ∧
    ¬ (∀ stroke ∈ (runCapture [CaptureEvent.down ⟨3, 4, 100⟩,
          CaptureEvent.up]).strokes, ∀ p ∈ stroke, p.timestamp.isSome) := by
  decide

/-- Witness for C10 at a concrete event list: the single recorded point of
a down/up gesture has no timestamp. -/
theorem claim_C10_witness :
    (⟨3, 4, none, 0⟩ : StoredPt).timestamp = none :=
  (claim_C10 [CaptureEvent.down ⟨3, 4, 100⟩, CaptureEvent.up]).1
    [⟨3, 4, none, 0⟩] (by decide) ⟨3, 4, none, 0⟩ (by decide)

/-- A resampling step pushes the current point whenever it is a stroke
boundary or the accumulated distance has reached the threshold. -/
lemma resampleAux_keep (cfg : Config) (prev : Pt) (acc : ℝ) (cur : Pt)
    (rest : List Pt)
    (h : (cur.penState = 0 ∧ prev.penState = 1) ∨
         acc + dist prev cur ≥ cfg.resampleDistance) :
    resampleAux cfg prev acc (cur :: rest) =
      cur :: resampleAux cfg cur 0 rest := by
  simp only [resampleAux]
  split_ifs with h1 h2
  · rfl
  · rfl
  · rcases h with h | h
    · exact absurd h h1
    · exact absurd h h2

/-- Every pen-down→pen-up boundary point survives the resampling loop,
whatever the accumulator state. -/
lemma resampleAux_boundary_mem :
    ∀ (l : List Pt) (cfg : Config) (prev : Pt) (acc : ℝ) (i : ℕ)
      (pre cur : Pt),
      (prev :: l)[i]? = some pre → l[i]? = some cur →
      pre.penState = 1 → cur.penState = 0 →
      cur ∈ resampleAux cfg prev acc l := by
  intro l
  induction l with
  | nil =>
    intro cfg prev acc i pre cur _ hcur _ _
    simp at hcur
  | cons c rest ih =>
    intro cfg prev acc i pre cur hpre hcur h1 h0
    cases i with
    | zero =>
      simp only [List.getElem?_cons_zero, Option.some.injEq] at hpre hcur
      rw [resampleAux_keep cfg prev acc c rest
        (Or.inl ⟨hcur ▸ h0, hpre ▸ h1⟩)]
      exact hcur ▸ List.mem_cons_self _ _
    | succ j =>
      simp only [List.getElem?_cons_succ] at hpre hcur
      simp only [resampleAux]
      split_ifs with hb hd
      · exact List.mem_cons_of_mem _ (ih cfg c 0 j pre cur hpre hcur h1 h0)
      · exact List.mem_cons_of_mem _ (ih cfg c 0 j pre cur hpre hcur h1 h0)
      · exact ih cfg c _ j pre cur hpre hcur h1 h0

/-- Resampling keeps the first point in front. -/
lemma resamplePoints_head? (cfg : Config) (pts : List Pt) :
    (resamplePoints cfg pts).head? = pts.head? := by
  match pts with
  | [] => rfl
  | [p] => rfl
  | p :: q :: rest =>
    simp only [resamplePoints]
    split_ifs <;> rfl

/-- Boundary points survive the whole resampling pass. -/
lemma resamplePoints_boundary_mem (cfg : Config) (pts : List Pt) (i : ℕ)
    (pre cur : Pt) (hpre : pts[i]? = some pre) (hcur : pts[i + 1]? = some cur)
    (h1 : pre.penState = 1) (h0 : cur.penState = 0) :
    cur ∈ resamplePoints cfg pts := by
  match pts with
  | [] => simp at hpre
  | [p] =>
    rcases i with _ | j <;> simp at hcur
  | p :: q :: rest =>
    have hmem : cur ∈ resampleAux cfg p 0 (q :: rest) :=
      resampleAux_boundary_mem (q :: rest) cfg p 0 i pre cur hpre
        (by simpa using hcur) h1 h0
    simp only [resamplePoints]
    split_ifs
    · exact List.mem_append_left _ (List.mem_cons_of_mem _ hmem)
    · exact List.mem_cons_of_mem _ hmem

/-- The last kept point always carries the coordinates of the last input
point (the point itself is appended when the coordinates differ). -/
lemma resamplePoints_last_coords (cfg : Config) (pts : List Pt) (lp : Pt)
    (h : pts.getLast? = some lp) :
    ∃ q, (resamplePoints cfg pts).getLast? = some q ∧
      q.x = lp.x ∧ q.y = lp.y := by
  match pts with
  | [] => simp at h
  | [p] =>
    have hpl : p = lp := by simpa using h
    exact ⟨p, rfl, by rw [hpl], by rw [hpl]⟩
  | p :: q0 :: rest =>
    have hlast : (q0 :: rest).getLast (List.cons_ne_nil _ _) = lp := by
      have := List.getLast?_eq_getLast (p :: q0 :: rest) (by simp)
      rw [this] at h
      have h2 : (p :: q0 :: rest).getLast (by simp) =
          (q0 :: rest).getLast (List.cons_ne_nil _ _) := by
        exact List.getLast_cons (List.cons_ne_nil _ _)
      simp only [Option.some.injEq] at h
      rw [← h, h2]
    simp only [resamplePoints]
    split_ifs with hcond
    · refine ⟨(q0 :: rest).getLast (List.cons_ne_nil _ _), ?_, ?_, ?_⟩
      · exact List.getLast?_concat _
      · rw [hlast]
      · rw [hlast]
    · push_neg at hcond
      obtain ⟨hx, hy⟩ := hcond
      refine ⟨(p :: resampleAux cfg p 0 (q0 :: rest)).getLastD ⟨0, 0, 0⟩,
        ?_, ?_, ?_⟩
      · rw [List.getLastD_eq_getLast?]
        rw [List.getLast?_eq_getLast _ (by simp)]
        rfl
      · rw [← hlast, ← hx]
      · rw [← hlast, ← hy]

/-- C4 (amended).  Resampling keeps the first point, keeps every
pen-down→pen-up boundary point, keeps a point as soon as the accumulated
Euclidean distance since the last kept point reaches resampleDistance, and
always preserves the coordinates of the final input point (the final point
itself is appended only when its coordinates differ from the last kept
point's, so its penState value may be represented by an earlier co-located
kept point); the concrete 10-point zig-zag stroke resamples to at least
two kept points. -/
theorem claim_C4 (cfg : Config) (pts : List Pt) :
    ((resamplePoints cfg pts).head? = pts.head?) ∧
    (∀ (i : ℕ) (pre cur : Pt), pts[i]? = some pre → pts[i + 1]? = some cur →
       pre.penState = 1 → cur.penState = 0 → cur ∈ resamplePoints cfg pts) ∧
    (∀ (prev : Pt) (acc : ℝ) (cur : Pt) (rest : List Pt),
       (cur.penState = 0 ∧ prev.penState = 1) ∨
         acc + dist prev cur ≥ cfg.resampleDistance →
       resampleAux cfg prev acc (cur :: rest) =
         cur :: resampleAux cfg cur 0 rest) ∧
    (∀ lp : Pt, pts.getLast? = some lp →
       ∃ q, (resamplePoints cfg pts).getLast? = some q ∧
         q.x = lp.x ∧ q.y = lp.y) ∧
    2 ≤ (resamplePoints DEFAULT_CONFIG zigzag10).length := by
  refine ⟨resamplePoints_head? cfg pts,
    fun i pre cur hpre hcur h1 h0 =>
      resamplePoints_boundary_mem cfg pts i pre cur hpre hcur h1 h0,
    fun prev acc cur rest h => resampleAux_keep cfg prev acc cur rest h,
    fun lp h => resamplePoints_last_coords cfg pts lp h, ?_⟩
  have hhead : (resamplePoints DEFAULT_CONFIG zigzag10).head? =
      some ⟨0, 0, 1⟩ := by
    rw [resamplePoints_head? DEFAULT_CONFIG zigzag10]
    rfl
  obtain ⟨q, hq, hqx, hqy⟩ :=
    resamplePoints_last_coords DEFAULT_CONFIG zigzag10 ⟨20, 16, 0⟩ (by rfl)
  match hout : resamplePoints DEFAULT_CONFIG zigzag10 with
  | [] =>
    rw [hout] at hhead
    simp at hhead
  | [a] =>
    rw [hout] at hhead hq
    simp only [List.head?_cons, Option.some.injEq] at hhead
    simp only [List.getLast?_singleton, Option.some.injEq] at hq
    rw [← hq, hhead] at hqx
    norm_num at hqx
  | a :: b :: t =>
    simp [List.length_cons]

/-- Counterexample to C4 as stated: with the default configuration, the
final point of the list (4, 0, penState 1) is dropped by resampling — an
earlier kept point has the same coordinates but penState 0 — so the final
point of the input is not always kept. -/
theorem claim_C4_cex :
    ((⟨4, 0, 1⟩ : Pt) ∉
       resamplePoints DEFAULT_CONFIG [⟨0, 0, 1⟩, ⟨4, 0, 0⟩, ⟨4, 0, 1⟩]) ∧
    ([⟨0, 0, 1⟩, ⟨4, 0, 0⟩, (⟨4, 0, 1⟩ : Pt)] : List Pt).getLast? =
      some ⟨4, 0, 1⟩ := by
  have hdist : dist ⟨4, 0, 0⟩ ⟨4, 0, 1⟩ = 0 := by
    simp [dist]
  have haux2 : resampleAux DEFAULT_CONFIG ⟨4, 0, 0⟩ 0 [⟨4, 0, 1⟩] = [] := by
    simp only [resampleAux]
    rw [if_neg (by norm_num), if_neg (by rw [hdist]; norm_num [DEFAULT_CONFIG])]
  have haux1 : resampleAux DEFAULT_CONFIG ⟨0, 0, 1⟩ 0
      [⟨4, 0, 0⟩, ⟨4, 0, 1⟩] = [⟨4, 0, 0⟩] := by
    rw [resampleAux_keep DEFAULT_CONFIG ⟨0, 0, 1⟩ 0 ⟨4, 0, 0⟩ [⟨4, 0, 1⟩]
      (Or.inl ⟨rfl, rfl⟩), haux2]
  have hres : resamplePoints DEFAULT_CONFIG [⟨0, 0, 1⟩, ⟨4, 0, 0⟩, ⟨4, 0, 1⟩] =
      [⟨0, 0, 1⟩, ⟨4, 0, 0⟩] := by
    simp only [resamplePoints, haux1]
    rw [if_neg (by norm_num)]
  rw [hres]
  constructor
  · decide
  · rfl

/-- Witness for C4 at concrete inputs: the boundary point (4, 0, pen up) is
kept, and a resampling step with a satisfied boundary condition pushes the
current point. -/
theorem claim_C4_witness :
    ((⟨4, 0, 0⟩ : Pt) ∈
       resamplePoints DEFAULT_CONFIG [⟨0, 0, 1⟩, ⟨4, 0, 0⟩]) ∧
    resampleAux DEFAULT_CONFIG ⟨0, 0, 1⟩ 0 [⟨4, 0, 0⟩] =
      ⟨4, 0, 0⟩ :: resampleAux DEFAULT_CONFIG ⟨4, 0, 0⟩ 0 [] :=
  ⟨(claim_C4 DEFAULT_CONFIG [⟨0, 0, 1⟩, ⟨4, 0, 0⟩]).2.1 0 ⟨0, 0, 1⟩ ⟨4, 0, 0⟩
      rfl rfl rfl rfl,
   (claim_C4 DEFAULT_CONFIG []).2.2.1 ⟨0, 0, 1⟩ 0 ⟨4, 0, 0⟩ []
      (Or.inl ⟨rfl, rfl⟩)⟩

/-- The PSM7 retry of recognizeFromCanvas runs exactly when the primary
confidence is below the threshold 60 or the primary (trimmed) text is
empty. -/
lemma secondDecodeRuns_iff (r6 : TessOut) :
    secondDecodeRuns r6 = true ↔
      (r6.confidence < 60 ∨ jsTrim r6.text = []) := by
  unfold secondDecodeRuns firstBest
  by_cases h : r6.confidence > 0 ∧ jsTrim r6.text ≠ []
  · rw [if_pos h]
    simp only [Bool.or_eq_true, decide_eq_true_eq]
  · rw [if_neg h]
    simp only [Bool.or_eq_true, decide_eq_true_eq]
    push_neg at h
    constructor
    · intro _
      by_cases hc : (0 : ℚ) < r6.confidence
      · exact Or.inr (h hc)
      · exact Or.inl (by linarith [not_lt.mp hc])
    · intro _
      exact Or.inl (by norm_num)

/-- The text recognizeFromCanvas returns is the cleanup of the candidate
described by the spec-side selection rule. -/
lemma model_text_eq (r6 r7 : TessOut) :
    (recognizeFromCanvasModel r6 r7).text =
      cleanOCRResult (specKeptText r6 r7) := by
  simp only [recognizeFromCanvasModel]
  congr 1
  unfold specKeptText secondDecodeRuns firstBest
  simp only [Bool.or_eq_true, decide_eq_true_eq]
  split_ifs <;> simp_all <;> linarith

/-- C8 (amended).  The alternate decode runs exactly when the primary
confidence is below the threshold or the primary text is empty (as the
claim states), and the final returned text is the post-filter cleanup
(control characters stripped, word-character-free content dropped,
whitespace collapsed) of the candidate kept by the selection rule: a
candidate qualifies only when nonempty with positive confidence, the
qualifying candidate with the strictly higher confidence wins with ties
going to the primary, and no qualifying candidate leaves empty text. -/
theorem claim_C8 (r6 r7 : TessOut) :
    ((recognizeFromCanvasModel r6 r7).ranSecond = true ↔
       (r6.confidence < 60 ∨ jsTrim r6.text = [])) ∧
    (recognizeFromCanvasModel r6 r7).text =
      cleanOCRResult (specKeptText r6 r7) :=
  ⟨secondDecodeRuns_iff r6, model_text_eq r6 r7⟩

/-- Counterexample to C8 as stated: a primary result with text made of
exclamation marks and confidence 90 is the unique nonempty result and the
alternate decode does not run, yet the returned text is empty — the
post-filter drops word-character-free text — so the final returned text is
not the non-empty result with the higher confidence. -/
theorem claim_C8_cex :
    (recognizeFromCanvasModel ⟨['!', '!', '!'], 90⟩ ⟨[], 0⟩).ranSecond
        = false ∧
    (recognizeFromCanvasModel ⟨['!', '!', '!'], 90⟩ ⟨[], 0⟩).text = [] ∧
    (['!', '!', '!'] : List Char) ≠ [] := by
  refine ⟨by decide, by decide, by decide⟩

end HW

